import Mathlib

/-!
Verification of the AutoLink matching-and-decision engine (`src/main.ts`).

Lines of editor text are modelled as `List Char` (JS strings indexed by
code unit); the mutable plugin object becomes an explicit `PluginState`,
the editor becomes an explicit `EditorState`, and `Date.now()` is passed
in as a `now : Nat` argument.  Each TypeScript method is translated to a
pure Lean function of the same name.
-/

set_option maxRecDepth 4000

namespace AutoLink

/-- A line of text, modelled as a list of characters (JS string). -/
abbrev Str := List Char

/-- An indexed vault file: the `path` identifies the object (reference
identity of a `TFile`), `basename` is the link target text. -/
structure TFile where
  path : Str
  basename : Str
deriving DecidableEq, Repr

/-- A candidate match produced by `findMatches`:
`{ title, file, isAlias }`. -/
structure Candidate where
  title : Str
  file : TFile
  isAlias : Bool
deriving DecidableEq, Repr

/-- The four operating modes. -/
inductive Mode where
  | autonomous
  | semiAutonomous
  | suggestions
  | custom
deriving DecidableEq, Repr

/-- The plugin settings (`AutoLinkSettings`). -/
structure AutoLinkSettings where
  mode : Mode
  minWordLength : Nat
  caseSensitive : Bool
  includeAliases : Bool
  customFolders : List Str
  debounceMs : Nat
  maxSuggestions : Nat
  customAllowEnterAccept : Bool
  customAutoInsertSingleMatch : Bool
deriving DecidableEq, Repr

/-- An undo record: `{ line, original, cursor, timestamp, linkText }`.
`timestamp` is a JS epoch count; `0` models a falsy/absent timestamp. -/
structure UndoRecord where
  line : Nat
  original : Str
  cursor : Nat × Nat
  timestamp : Nat
  linkText : Str
deriving DecidableEq, Repr

/-- The editor: a list of lines and a `(line, ch)` cursor. -/
structure EditorState where
  lines : List Str
  cursor : Nat × Nat
deriving DecidableEq, Repr

/-- Editor `getLine`: out-of-range reads give the empty line. -/
def getLine (ed : EditorState) (i : Nat) : Str := ed.lines.getD i []

/-- Editor `setLine`. -/
def setLine (ed : EditorState) (i : Nat) (s : Str) : EditorState :=
  { ed with lines := ed.lines.set i s }

/-- Editor `setCursor`. -/
def setCursor (ed : EditorState) (c : Nat × Nat) : EditorState :=
  { ed with cursor := c }

/-- The mutable plugin fields the engine reads and writes. -/
structure PluginState where
  settings : AutoLinkSettings
  noteTitles : List (Str × TFile)
  aliases : List (Str × TFile)
  pendingMatches : List (Str × List Candidate)
  undoStack : List UndoRecord
  isAutoLinkDisabled : Bool
deriving DecidableEq, Repr

/-- Case folding applied to index keys and search keys:
`caseSensitive ? s : s.toLowerCase()`. -/
def normKey (st : AutoLinkSettings) (s : Str) : Str :=
  if st.caseSensitive then s else s.map Char.toLower

/-- JS `Map.get`: the value stored for a key, if any. -/
def mapGet (m : List (Str × List Candidate)) (k : Str) : Option (List Candidate) :=
  (m.find? (fun p => p.1 == k)).map (·.2)

/-- JS `Map.set`: overwrite in place if the key is present, else append. -/
def mapSet (m : List (Str × List Candidate)) (k : Str) (v : List Candidate) :
    List (Str × List Candidate) :=
  if m.any (fun p => p.1 == k) then
    m.map (fun p => if p.1 == k then (k, v) else p)
  else m ++ [(k, v)]

/-- JS character test for `\w`, `\s`, `-`, `_` — the fragment character
class `[\w\s\-_]` used to extract the word-like fragment. -/
def isWordChar (c : Char) : Bool :=
  c.isAlphanum || c == '_' || c == '-' || c.isWhitespace

/-- The longest suffix of `s` whose characters all satisfy `p` —
the result of matching the anchored regex `/[...]+$/` (empty when the
regex does not match). -/
def suffixWhile (p : Char → Bool) (s : Str) : Str :=
  (s.reverse.takeWhile p).reverse

/-- JS `String.prototype.trim`, dropping whitespace at both ends. -/
def trimStr (s : Str) : Str :=
  ((s.dropWhile Char.isWhitespace).reverse.dropWhile Char.isWhitespace).reverse

/-- Membership of the delimiter character class
`[\s.,!?;:()[\]{}|\\/<>@#$%^&*+=~`"'-]` used for `isWordCompleting`. -/
def isDelimiterChar (c : Char) : Bool :=
  c.isWhitespace ||
  (".,!?;:()[]".toList).contains c ||
  ("\x7b\x7d|\\/<>@#$%^&*+=~-".toList).contains c ||
  c == '\x60' || c == '\x27' || c == '\x22'

/-- The test `cursor.ch > 0 ? line[cursor.ch - 1] : ""` matched against
the delimiter class (an out-of-range read is not a delimiter). -/
def justTypedDelim (line : Str) (ch : Nat) : Bool :=
  decide (0 < ch) &&
  (match line.get? (ch - 1) with
   | some c => isDelimiterChar c
   | none => false)

/-- Count of non-overlapping `cc` digraph occurrences, as the global
regexes `/\[\[/g` and `/\]\]/g` count them (scanning left to right). -/
def countPairs (c : Char) : Str → Nat
  | a :: b :: rest =>
    if a = c ∧ b = c then countPairs c rest + 1 else countPairs c (b :: rest)
  | _ => 0

/-- JS `String.prototype.lastIndexOf` for a single character
(`-1` when absent). -/
def lastIndexOfChar (s : Str) (c : Char) : Int :=
  match s.reverse.findIdx? (· == c) with
  | none => -1
  | some j => ((s.length - 1 - j : Nat) : Int)

/-- Substring containment, JS `String.prototype.includes`. -/
def containsSub (s pat : Str) : Bool :=
  (List.range (s.length + 1)).any (fun i => pat.isPrefixOf (s.drop i))

/-- The link-syntax detector `isInsideLink(line, ch)` translated from
the source: unbalanced `[[`/`]]` counts before the cursor, then the
`[text](url)` heuristic. -/
def isInsideLink (line : Str) (ch : Nat) : Bool :=
  let beforeCursor := line.take ch
  let afterCursor := line.drop ch
  let openBrackets := countPairs '[' beforeCursor
  let closeBrackets := countPairs ']' beforeCursor
  if openBrackets > closeBrackets then true
  else if lastIndexOfChar beforeCursor '[' > lastIndexOfChar beforeCursor ']'
          && containsSub afterCursor (']' :: '(' :: []) then true
  else false

/-- The match resolver's title scan: every `noteTitles` entry whose key
is not the (normalized) current basename and starts with the search key,
in index iteration order, projected to a non-alias candidate. -/
def titleScan (noteTitles : List (Str × TFile)) (searchKey curKey : Str) :
    List Candidate :=
  (noteTitles.filter
      (fun p => !(p.1 == curKey) && searchKey.isPrefixOf p.1)).map
    (fun p => ⟨p.2.basename, p.2, false⟩)

/-- The match resolver's alias scan, accumulating onto the title
matches: an alias entry is added when its file is not the current
document, its key starts with the search key, and its file is not
already among the accumulated matches. -/
def aliasScan (searchKey currentBasename : Str) :
    List (Str × TFile) → List Candidate → List Candidate
  | [], acc => acc
  | (a, f) :: rest, acc =>
    if f.basename ≠ currentBasename ∧ searchKey.isPrefixOf a = true ∧
        (∀ m ∈ acc, m.file ≠ f) then
      aliasScan searchKey currentBasename rest (acc ++ [⟨a, f, true⟩])
    else
      aliasScan searchKey currentBasename rest acc

/-- `findMatches(typed, currentBasename)` from the source: title scan,
then alias scan with title-precedence deduplication, truncated to
`maxSuggestions`. -/
def findMatches (st : PluginState) (typed currentBasename : Str) :
    List Candidate :=
  let searchKey := normKey st.settings typed
  let curKey := normKey st.settings currentBasename
  let titleMatches := titleScan st.noteTitles searchKey curKey
  (aliasScan searchKey currentBasename st.aliases titleMatches).take
    st.settings.maxSuggestions

/-- The produced link text:
`[[basename]]` or `[[basename|aliasTitle]]`. -/
def linkFor (m : Candidate) : Str :=
  '[' :: '[' ::
    (m.file.basename ++ (if m.isAlias then '|' :: m.title else []) ++
      [']', ']'])

/-- The undo record captured at the start of every mutating operation:
the pre-mutation line, the pre-mutation cursor, the timestamp, and the
inserted target basename. -/
def mkRecord (ed : EditorState) (now : Nat) (b : Str) : UndoRecord :=
  ⟨ed.cursor.1, getLine ed ed.cursor.1, ed.cursor, now, b⟩

/-- Push an undo record and enforce the bound of 10, exactly as the
source does after every push: `if (undoStack.length > 10) shift()`. -/
def boundPush (stack : List UndoRecord) (r : UndoRecord) : List UndoRecord :=
  if (stack ++ [r]).length > 10 then (stack ++ [r]).drop 1
  else stack ++ [r]

/-- `insertLinkForCompletedWord(editor, completedWord, match,
delimiterPos)`: records undo, splices the link over the completed word,
repositions the cursor after the link and the kept delimiter. -/
def insertLinkForCompletedWord (st : PluginState) (ed : EditorState)
    (completedWord : Str) (m : Candidate) (delimiterPos : Nat) (now : Nat) :
    PluginState × EditorState :=
  let cursor := ed.cursor
  let line := getLine ed cursor.1
  let rec0 : UndoRecord := ⟨cursor.1, line, cursor, now, m.file.basename⟩
  let link := linkFor m
  let beforeDelimiter := line.take delimiterPos
  let wordStart := beforeDelimiter.length - completedWord.length
  let newLine := line.take wordStart ++ link ++ line.drop delimiterPos
  let ed1 := setLine ed cursor.1 newLine
  let newCursorPos := wordStart + link.length + 1
  let ed2 := setCursor ed1 (cursor.1, min newLine.length newCursorPos)
  ({ st with undoStack := boundPush st.undoStack rec0 }, ed2)

/-- `handleAutonomousMode(editor, typed, matches, cursor)` (used by
custom mode): inserts only on a unique match, replacing the typed
suffix of the line.  The Bool reports whether an insertion happened. -/
def handleAutonomousMode (st : PluginState) (ed : EditorState)
    (typed : Str) (ms : List Candidate) (now : Nat) :
    PluginState × EditorState × Bool :=
  match ms with
  | [m] =>
    let cursor := ed.cursor
    let line := getLine ed cursor.1
    let rec0 : UndoRecord := ⟨cursor.1, line, cursor, now, m.file.basename⟩
    let link := linkFor m
    let newLine :=
      if typed.isSuffixOf line then
        line.take (line.length - typed.length) ++ link
      else line
    let ed1 := setCursor (setLine ed cursor.1 newLine)
      (cursor.1, cursor.2 - typed.length + link.length)
    ({ st with undoStack := boundPush st.undoStack rec0 }, ed1, true)
  | _ => (st, ed, false)

/-- JS `lastIndexOf` of a substring, `none` for `-1`. -/
def lastIndexOfSub (s pat : Str) : Option Nat :=
  ((List.range (s.length + 1)).reverse).find?
    (fun i => pat.isPrefixOf (s.drop i))

/-- `acceptSuggestion(editor, match, typed)`: records undo, replaces
the last occurrence of `typed` before the cursor (falling back to a
suffix replacement), repositions the cursor after the link. -/
def acceptSuggestion (st : PluginState) (ed : EditorState)
    (m : Candidate) (typed : Str) (now : Nat) : PluginState × EditorState :=
  let cursor := ed.cursor
  let line := getLine ed cursor.1
  let rec0 : UndoRecord := ⟨cursor.1, line, cursor, now, m.file.basename⟩
  let link := linkFor m
  let beforeCursor := line.take cursor.2
  let ed1 :=
    match lastIndexOfSub beforeCursor typed with
    | none =>
      let newLine :=
        if typed.isSuffixOf line then
          line.take (line.length - typed.length) ++ link
        else line
      setCursor (setLine ed cursor.1 newLine)
        (cursor.1, min newLine.length (cursor.2 - typed.length + link.length))
    | some idx =>
      let newLine := line.take idx ++ link ++ line.drop (idx + typed.length)
      setCursor (setLine ed cursor.1 newLine)
        (cursor.1, min newLine.length (idx + link.length))
  ({ st with undoStack := boundPush st.undoStack rec0 }, ed1)

/-- The mode `switch` at the end of `handleEditorChange`: autonomous
and semiAutonomous just close the popup; suggestions shows the popup
(a UI effect, no engine-state change); custom auto-inserts a unique
match when configured, else shows or closes the popup. -/
def modeSwitch (st1 : PluginState) (ed : EditorState) (ms : List Candidate)
    (typed : Str) (now : Nat) : PluginState × EditorState × Bool :=
  match st1.settings.mode with
  | .autonomous => (st1, ed, false)
  | .semiAutonomous => (st1, ed, false)
  | .suggestions => (st1, ed, false)
  | .custom =>
    if ms.length = 1 ∧ st1.settings.customAutoInsertSingleMatch = true then
      handleAutonomousMode st1 ed typed ms now
    else (st1, ed, false)

/-- `handleEditorChange(editor, view)`: the per-event decision
procedure.  The returned Bool reports whether a link was inserted. -/
def handleEditorChange (st : PluginState) (ed : EditorState)
    (currentBasename : Str) (now : Nat) : PluginState × EditorState × Bool :=
  if st.isAutoLinkDisabled = true then (st, ed, false) else
  if isInsideLink (getLine ed ed.cursor.1) ed.cursor.2 = true then
    (st, ed, false) else
  if suffixWhile isWordChar ((getLine ed ed.cursor.1).take ed.cursor.2) = []
    then ({ st with pendingMatches := [] }, ed, false) else
  if (trimStr (suffixWhile isWordChar
        ((getLine ed ed.cursor.1).take ed.cursor.2))).length <
      st.settings.minWordLength then
    ({ st with pendingMatches := [] }, ed, false) else
  let line := getLine ed ed.cursor.1
  let typed := trimStr (suffixWhile isWordChar (line.take ed.cursor.2))
  let ms := findMatches st typed currentBasename
  let st1 := { st with pendingMatches := mapSet st.pendingMatches typed ms }
  if (st.settings.mode = .autonomous ∨ st.settings.mode = .semiAutonomous) ∧
      justTypedDelim line ed.cursor.2 = true then
    if suffixWhile isWordChar (line.take (ed.cursor.2 - 1)) = [] then
      modeSwitch st1 ed ms typed now
    else
      let completedWord := trimStr (suffixWhile isWordChar
        (line.take (ed.cursor.2 - 1)))
      let completedMatches := findMatches st1 completedWord currentBasename
      if h : completedMatches.length = 1 then
        if (match mapGet st1.pendingMatches completedWord with
            | some l => decide (l.length > 1)
            | none => false) = true ∨ completedMatches.length = 1 then
          let r := insertLinkForCompletedWord st1 ed completedWord
            (completedMatches.head (List.length_pos.mp (by omega)))
            (ed.cursor.2 - 1) now
          ({ r.1 with pendingMatches := [] }, r.2, true)
        else modeSwitch st1 ed ms typed now
      else modeSwitch st1 ed ms typed now
  else modeSwitch st1 ed ms typed now

/-- Modelled from the spec: the variant of `handleEditorChange`
described in spec §9 that drops the redundant prior-ambiguity check
(`wasWaiting || completedMatches.length === 1`) and auto-links solely
on "exactly one candidate at word completion". -/
def handleEditorChangeSolo (st : PluginState) (ed : EditorState)
    (currentBasename : Str) (now : Nat) : PluginState × EditorState × Bool :=
  if st.isAutoLinkDisabled = true then (st, ed, false) else
  if isInsideLink (getLine ed ed.cursor.1) ed.cursor.2 = true then
    (st, ed, false) else
  if suffixWhile isWordChar ((getLine ed ed.cursor.1).take ed.cursor.2) = []
    then ({ st with pendingMatches := [] }, ed, false) else
  if (trimStr (suffixWhile isWordChar
        ((getLine ed ed.cursor.1).take ed.cursor.2))).length <
      st.settings.minWordLength then
    ({ st with pendingMatches := [] }, ed, false) else
  let line := getLine ed ed.cursor.1
  let typed := trimStr (suffixWhile isWordChar (line.take ed.cursor.2))
  let ms := findMatches st typed currentBasename
  let st1 := { st with pendingMatches := mapSet st.pendingMatches typed ms }
  if (st.settings.mode = .autonomous ∨ st.settings.mode = .semiAutonomous) ∧
      justTypedDelim line ed.cursor.2 = true then
    if suffixWhile isWordChar (line.take (ed.cursor.2 - 1)) = [] then
      modeSwitch st1 ed ms typed now
    else
      let completedWord := trimStr (suffixWhile isWordChar
        (line.take (ed.cursor.2 - 1)))
      let completedMatches := findMatches st1 completedWord currentBasename
      if h : completedMatches.length = 1 then
        let r := insertLinkForCompletedWord st1 ed completedWord
          (completedMatches.head (List.length_pos.mp (by omega)))
          (ed.cursor.2 - 1) now
        ({ r.1 with pendingMatches := [] }, r.2, true)
      else modeSwitch st1 ed ms typed now
  else modeSwitch st1 ed ms typed now

/-- `undoLastAutolink(editor)`: pop the most recent record, restore the
recorded line and cursor; a no-op on an empty ledger. -/
def undoLastAutolink (st : PluginState) (ed : EditorState) :
    PluginState × EditorState :=
  match st.undoStack.getLast? with
  | none => (st, ed)
  | some lastAction =>
    ({ st with undoStack := st.undoStack.dropLast },
      setCursor (setLine ed lastAction.line lastAction.original)
        lastAction.cursor)

/-- The character-by-character loop of `findCommonPrefix`: walk the
first string with index `i`, appending its `i`-th character while every
string has that same character at `i`, stopping at the first failure. -/
def lcpGo (strings : List Str) : Nat → Str → Str
  | _, [] => []
  | i, c :: cs =>
    if strings.all (fun s => s.get? i == some c) then
      c :: lcpGo strings (i + 1) cs
    else []

/-- `findCommonPrefix(strings)` from the source: empty for the empty
list, otherwise the common-prefix loop over the first string. -/
def findCommonPrefix (strings : List Str) : Str :=
  match strings with
  | [] => []
  | first :: _ => lcpGo strings 0 first

/-- One record-inserting or undo operation of the engine, with the
arguments it is called with. -/
inductive EngineOp where
  | insWord (completedWord : Str) (m : Candidate) (delimiterPos now : Nat)
  | auton (typed : Str) (ms : List Candidate) (now : Nat)
  | accept (m : Candidate) (typed : Str) (now : Nat)
  | undoOp

/-- Run one engine operation on a plugin/editor state pair. -/
def runOp (s : PluginState × EditorState) : EngineOp → PluginState × EditorState
  | .insWord w m d n => insertLinkForCompletedWord s.1 s.2 w m d n
  | .auton t ms n =>
    ((handleAutonomousMode s.1 s.2 t ms n).1,
      (handleAutonomousMode s.1 s.2 t ms n).2.1)
  | .accept m t n => acceptSuggestion s.1 s.2 m t n
  | .undoOp => undoLastAutolink s.1 s.2

/-- Run a sequence of engine operations. -/
def runOps (ops : List EngineOp) (s : PluginState × EditorState) :
    PluginState × EditorState :=
  ops.foldl runOp s


/-! ## Concrete fixtures used by witnesses -/

/-- A vault file `Note.md`. -/
def fNote : TFile := ⟨"Note.md".toList, "Note".toList⟩

/-- A vault file `Note with Space.md`. -/
def fNWS : TFile := ⟨"Note with Space.md".toList, "Note with Space".toList⟩

/-- A vault file `Deep Work.md` (with alias `Focus` in the fixtures). -/
def fDeep : TFile := ⟨"Deep Work.md".toList, "Deep Work".toList⟩

/-- A vault file `Project Plan.md`. -/
def fProject : TFile := ⟨"Project Plan.md".toList, "Project Plan".toList⟩

/-- The default settings of the plugin (autonomous, minWordLength 3,
case-insensitive, aliases on, maxSuggestions 10). -/
def baseSettings : AutoLinkSettings :=
  ⟨.autonomous, 3, false, true, [], 300, 10, true, true⟩

/-- Plugin state whose index holds `Note` and `Note with Space`. -/
def ambiguousState : PluginState :=
  ⟨baseSettings,
    [("note".toList, fNote), ("note with space".toList, fNWS)],
    [], [], [], false⟩

/-- Plugin state whose index holds only `Note`. -/
def uniqueState : PluginState :=
  ⟨baseSettings, [("note".toList, fNote)], [], [], [], false⟩

/-- Plugin state indexing `Project Plan` (title) and `Focus` (alias of
`Deep Work`), case-insensitively. -/
def projState : PluginState :=
  ⟨baseSettings,
    [("project plan".toList, fProject)],
    [("focus".toList, fDeep)],
    [], [], false⟩

/-- Editor containing the single line `Note ` with the cursor after the
just-typed space. -/
def noteEditor : EditorState := ⟨["Note ".toList], (0, 5)⟩

/-- A concrete undo record for the `Note ` line. -/
def recNote : UndoRecord := ⟨0, "Note ".toList, (0, 5), 100, "Note".toList⟩

/-- A batch of 15 distinct undo records. -/
def wRecs : List UndoRecord :=
  (List.range 15).map (fun i => ⟨i, [], (0, 0), 0, []⟩)



/-- Keys relevant to the keydown handler. -/
inductive KeyType where
  | backspace
  | delete
  | other
deriving DecidableEq, Repr

/-- Attempt to match the regex `\\[\\[([^|\\]]+)(?:\\|[^\\]]+)?\\]\\]`
at the start of `s`; on success return the match length and the
captured base text (the link target). -/
def tryLinkAt (s : Str) : Option (Nat × Str) :=
  match s with
  | '[' :: '[' :: rest =>
    let base := rest.takeWhile (fun c => !(c == '|') && !(c == ']'))
    if base.isEmpty then none
    else
      match rest.drop base.length with
      | ']' :: ']' :: _ => some (base.length + 4, base)
      | '|' :: rest2 =>
        let lab := rest2.takeWhile (fun c => !(c == ']'))
        if lab.isEmpty then none
        else
          match rest2.drop lab.length with
          | ']' :: ']' :: _ => some (base.length + 1 + lab.length + 4, base)
          | _ => none
      | _ => none
  | _ => none

/-- The scanning loop of the global regex: at each position, emit a
match and jump past it, or advance one character.  `i` is the absolute
index of the head of `s` in the scanned line.  Each step consumes at
least one character of `s`, so a fuel of `s.length` never runs out. -/
def findLinksAux (fuel : Nat) (s : Str) (i : Nat) : List (Nat × Nat × Str) :=
  match fuel with
  | 0 => []
  | fuel + 1 =>
    match s with
    | [] => []
    | ch :: rest =>
      match tryLinkAt (ch :: rest) with
      | some (len, base) =>
        (i, len, base) :: findLinksAux fuel ((ch :: rest).drop len) (i + len)
      | none => findLinksAux fuel rest (i + 1)

/-- All matches of the link regex `/\\[\\[([^|\\]]+)(?:\\|[^\\]]+)?\\]\\]/g`
over a line, as `(start, length, base)` triples in scan order. -/
def findLinks (line : Str) : List (Nat × Nat × Str) :=
  findLinksAux line.length line 0

/-- The cursor-adjacency test of the keydown handler: Backspace wants
`linkStart < ch ≤ linkEnd`, Delete wants `linkStart ≤ ch < linkEnd`. -/
def nearLink (key : KeyType) (ch linkStart linkEnd : Nat) : Bool :=
  (key == .backspace && decide (linkStart < ch) && decide (ch ≤ linkEnd)) ||
  (key == .delete && decide (linkStart ≤ ch) && decide (ch < linkEnd))

/-- The Backspace/Delete keydown handler from `onload`: on a matching
key with a nonempty ledger, when the cursor is on the most recent
record line, some scanned link has that record target and the cursor
adjacent to or inside its span, and the record is fresh (or has no
timestamp), it consumes the event, disables auto-linking, and undoes;
otherwise the keypress proceeds natively.  The Bool reports whether the
event default was prevented (the undo fired). -/
def implicitUndoHandler (key : KeyType) (st : PluginState)
    (ed : EditorState) (now : Nat) : Bool × PluginState × EditorState :=
  if (key = .backspace ∨ key = .delete) ∧ st.undoStack.length > 0 then
    match st.undoStack.getLast? with
    | none => (false, st, ed)
    | some lastUndo =>
      if ed.cursor.1 = lastUndo.line ∧ lastUndo.linkText ≠ [] then
        match (findLinks (getLine ed ed.cursor.1)).find?
            (fun t => t.2.2 == lastUndo.linkText &&
              nearLink key ed.cursor.2 t.1 (t.1 + t.2.1)) with
        | some _ =>
          if lastUndo.timestamp = 0 ∨ now - lastUndo.timestamp ≤ 30000 then
            (true,
              (undoLastAutolink { st with isAutoLinkDisabled := true } ed).1,
              (undoLastAutolink { st with isAutoLinkDisabled := true } ed).2)
          else (false, st, ed)
        | none => (false, st, ed)
      else (false, st, ed)
  else (false, st, ed)


/-! ## Helper lemmas -/

theorem lcpGo_prefix (strings : List Str) :
    ∀ (first : Str) (i : Nat) (s : Str), s ∈ strings →
      lcpGo strings i first <+: s.drop i := by
  intro first
  induction first with
  | nil => intro i s _; exact List.nil_prefix
  | cons c cs ih =>
    intro i s hs
    rw [lcpGo]
    split
    · rename_i hall
      rw [List.all_eq_true] at hall
      have hc : s.get? i = some c := by
        have := hall s hs
        simpa using this
      rw [List.get?_eq_some] at hc
      obtain ⟨hlt, hget⟩ := hc
      have hdrop : s.drop i = c :: s.drop (i + 1) := by
        rw [List.drop_eq_getElem_cons hlt]
        simp [List.get_eq_getElem] at hget
        rw [hget]
      rw [hdrop]
      obtain ⟨t, ht⟩ := ih (i + 1) s hs
      exact ⟨t, by simp [← ht]⟩
    · exact List.nil_prefix

theorem lcpGo_max (strings : List Str) (first : Str) (hf : first ∈ strings) :
    ∀ (p : Str) (i : Nat), (∀ s ∈ strings, p <+: s.drop i) →
      p.length ≤ (lcpGo strings i (first.drop i)).length := by
  intro p
  induction p with
  | nil => intro i _; simp
  | cons c p' ih =>
    intro i hp
    have hstep : ∀ s ∈ strings, s.get? i = some c ∧ p' <+: s.drop (i + 1) := by
      intro s hs
      obtain ⟨t, ht⟩ := hp s hs
      constructor
      · have h0 : (s.drop i)[0]? = some c := by rw [← ht]; simp
        rw [List.getElem?_drop] at h0
        rw [List.get?_eq_getElem?]
        simpa using h0
      · have h2 : (s.drop i).drop 1 = p' ++ t := by rw [← ht]; rfl
        rw [List.drop_drop] at h2
        exact ⟨t, h2.symm⟩
    have hfc : first.drop i = c :: first.drop (i + 1) := by
      obtain ⟨hc, _⟩ := hstep first hf
      rw [List.get?_eq_some] at hc
      obtain ⟨hlt, hget⟩ := hc
      rw [List.drop_eq_getElem_cons hlt]
      simp [List.get_eq_getElem] at hget
      rw [hget]
    rw [hfc, lcpGo]
    split
    · simpa using ih (i + 1) (fun s hs => (hstep s hs).2)
    · rename_i hall
      exfalso
      apply hall
      rw [List.all_eq_true]
      intro s hs
      simpa using (hstep s hs).1

theorem set_getD_self (l : List α) (i : Nat) (d : α) :
    l.set i (l.getD i d) = l := by
  induction l generalizing i with
  | nil => simp
  | cons a l ih =>
    cases i with
    | zero => simp [List.getD]
    | succ n => simp [List.getD] at ih ⊢; exact ih n

theorem getD_set_self (l : List α) (i : Nat) (a d : α) (h : i < l.length) :
    (l.set i a).getD i d = a := by
  simp [List.getD, List.getElem?_set_self, h]

theorem boundPush_length {s : List UndoRecord} (h : s.length ≤ 10)
    (r : UndoRecord) : (boundPush s r).length ≤ 10 := by
  unfold boundPush
  split
  · simp only [List.length_drop, List.length_append, List.length_cons,
      List.length_nil]
    omega
  · rename_i hle
    simp only [List.length_append, List.length_cons, List.length_nil] at hle ⊢
    omega

theorem boundPush_getLast (s : List UndoRecord) (r : UndoRecord) :
    (boundPush s r).getLast? = some r := by
  unfold boundPush
  split
  · rename_i h
    cases s with
    | nil => simp at h
    | cons a s' => simp [List.getLast?_concat]
  · simp [List.getLast?_concat]

theorem boundPush_eq_append {s : List UndoRecord} (h : s.length < 10)
    (r : UndoRecord) : boundPush s r = s ++ [r] := by
  unfold boundPush
  rw [if_neg]
  simp
  omega

theorem boundPush_evict {s : List UndoRecord} (h : s.length = 10)
    (r : UndoRecord) : boundPush s r = s.drop 1 ++ [r] := by
  unfold boundPush
  rw [if_pos (by simp [h])]
  rw [List.drop_append_of_le_length (by omega)]

theorem foldl_boundPush (rs : List UndoRecord) :
    ∀ s : List UndoRecord, s.length ≤ 10 →
      rs.foldl boundPush s = (s ++ rs).drop (s.length + rs.length - 10) := by
  induction rs with
  | nil =>
    intro s h
    simp [Nat.sub_eq_zero_of_le h]
  | cons r rs ih =>
    intro s h
    rw [List.foldl_cons, ih (boundPush s r) (boundPush_length h r)]
    by_cases h10 : s.length = 10
    · rw [boundPush_evict h10 r]
      have hidx : (s.drop 1 ++ [r]).length + rs.length - 10 = rs.length := by
        simp only [List.length_append, List.length_drop, List.length_cons,
          List.length_nil]
        omega
      have hidx2 : s.length + (r :: rs).length - 10 = rs.length + 1 := by
        simp only [List.length_cons]
        omega
      rw [hidx, hidx2]
      cases s with
      | nil => simp at h10
      | cons a s' =>
        simp only [List.drop_succ_cons, List.drop_zero, List.cons_append,
          List.append_assoc, List.singleton_append, List.nil_append]
    · have hlt : s.length < 10 := lt_of_le_of_ne h h10
      rw [boundPush_eq_append hlt r, List.append_assoc]
      have hidx : (s ++ [r]).length + rs.length - 10 =
          s.length + (r :: rs).length - 10 := by
        simp only [List.length_append, List.length_cons, List.length_nil]
        omega
      rw [hidx]
      rfl

theorem runOp_length {s : PluginState × EditorState} (op : EngineOp)
    (h : s.1.undoStack.length ≤ 10) :
    (runOp s op).1.undoStack.length ≤ 10 := by
  cases op with
  | insWord w m d n =>
    simp only [runOp, insertLinkForCompletedWord]
    exact boundPush_length h _
  | auton t ms n =>
    rcases ms with _ | ⟨m, _ | ⟨m2, rest⟩⟩ <;>
      simp only [runOp, handleAutonomousMode]
    · exact h
    · exact boundPush_length h _
    · exact h
  | accept m t n =>
    simp only [runOp, acceptSuggestion]
    exact boundPush_length h _
  | undoOp =>
    simp only [runOp, undoLastAutolink]
    split
    · exact h
    · simp only [List.length_dropLast]
      omega

/-! ## Claims -/

/-- C10: `findCommonPrefix` computes the longest common prefix: its
result is a prefix of every element; no common prefix of all elements
(of a nonempty list) is longer; and the empty list yields the empty
string. -/
theorem findCommonPrefix_correct (strings : List Str) :
    findCommonPrefix ([] : List Str) = [] ∧
    (∀ s ∈ strings, findCommonPrefix strings <+: s) ∧
    (∀ p : Str, strings ≠ [] → (∀ s ∈ strings, p <+: s) →
      p.length ≤ (findCommonPrefix strings).length) := by
  refine ⟨rfl, ?_, ?_⟩
  · intro s hs
    match strings, hs with
    | first :: rest, hs =>
      have := lcpGo_prefix (first :: rest) first 0 s hs
      simpa using this
  · intro p hne hp
    match strings, hne with
    | first :: rest, _ =>
      have := lcpGo_max (first :: rest) first (by simp) p 0
        (by simpa using hp)
      simpa using this

/-- C10 witness: at a concrete input, the computed prefix is a prefix
of each element and dominates the length of a given common prefix. -/
theorem findCommonPrefix_correct_witness :
    (∀ s ∈ ["abcd".toList, "abce".toList], findCommonPrefix
      ["abcd".toList, "abce".toList] <+: s) ∧
    ("ab".toList : Str).length ≤
      (findCommonPrefix ["abcd".toList, "abce".toList]).length :=
  ⟨(findCommonPrefix_correct ["abcd".toList, "abce".toList]).2.1,
    (findCommonPrefix_correct ["abcd".toList, "abce".toList]).2.2
      "ab".toList (by decide) (by decide)⟩

/-- C9: the inner guard `wasWaiting || completedMatches.length === 1`
is evaluated only inside the `completedMatches.length === 1` branch, so
dropping the prior-ambiguity check gives a behaviorally equivalent
decision procedure on every input. -/
theorem handleEditorChange_eq_solo (st : PluginState) (ed : EditorState)
    (currentBasename : Str) (now : Nat) :
    handleEditorChange st ed currentBasename now =
      handleEditorChangeSolo st ed currentBasename now := by
  simp only [handleEditorChange, handleEditorChangeSolo]
  split
  · rfl
  split
  · rfl
  split
  · rfl
  split
  · rfl
  split
  · split
    · rfl
    · split
      · rename_i h
        rw [if_pos (Or.inr h)]
      · rfl
  · rfl


/-- Undoing immediately after a mutation of the
`boundPush`-record-then-`setLine`-then-`setCursor` shape restores the
editor lines and cursor exactly. -/
theorem undo_of_setline (st : PluginState) (ed : EditorState)
    (newLine : Str) (c' : Nat × Nat) (now : Nat) (b : Str) :
    (undoLastAutolink
      { st with undoStack := boundPush st.undoStack (mkRecord ed now b) }
      (setCursor (setLine ed ed.cursor.1 newLine) c')).2.lines = ed.lines ∧
    (undoLastAutolink
      { st with undoStack := boundPush st.undoStack (mkRecord ed now b) }
      (setCursor (setLine ed ed.cursor.1 newLine) c')).2.cursor =
      ed.cursor := by
  have h1 : ({ st with undoStack := boundPush st.undoStack (mkRecord ed now b) } : PluginState).undoStack.getLast? = some (mkRecord ed now b) :=
    boundPush_getLast _ _
  unfold undoLastAutolink
  rw [h1]
  constructor
  · show ((ed.lines.set ed.cursor.1 newLine).set (mkRecord ed now b).line
      (mkRecord ed now b).original) = ed.lines
    rw [show (mkRecord ed now b).line = ed.cursor.1 from rfl,
      show (mkRecord ed now b).original = ed.lines.getD ed.cursor.1 []
        from rfl,
      List.set_set]
    exact set_getD_self ed.lines ed.cursor.1 []
  · rfl

/-- C5: the undo ledger stays within 10 records under any sequence of
record-inserting operations and undos; an insertion into a full ledger
evicts the oldest record (FIFO); 15 sequential insertions leave exactly
the 10 most recent records. -/
theorem undoStack_bound_fifo :
    (∀ (ops : List EngineOp) (st : PluginState) (ed : EditorState),
      st.undoStack.length ≤ 10 →
      (runOps ops (st, ed)).1.undoStack.length ≤ 10) ∧
    (∀ (s : List UndoRecord) (r : UndoRecord), s.length = 10 →
      boundPush s r = s.drop 1 ++ [r]) ∧
    (∀ rs : List UndoRecord, rs.length = 15 →
      rs.foldl boundPush [] = rs.drop 5) := by
  refine ⟨?_, ?_, ?_⟩
  · intro ops
    suffices h : ∀ s : PluginState × EditorState,
        s.1.undoStack.length ≤ 10 →
        (runOps ops s).1.undoStack.length ≤ 10 by
      intro st ed hh
      exact h (st, ed) hh
    induction ops with
    | nil => intro s h; exact h
    | cons op ops ih =>
      intro s h
      exact ih (runOp s op) (runOp_length op h)
  · intro s r h
    exact boundPush_evict h r
  · intro rs h
    have := foldl_boundPush rs [] (by simp)
    simpa [h] using this

/-- C5 witness: a concrete mixed op sequence keeps the bound; a full
ledger evicts its head; 15 concrete insertions keep the last 10. -/
theorem undoStack_bound_fifo_witness :
    (runOps [.insWord "Note".toList ⟨"Note".toList, fNote, false⟩ 4 1,
             .accept ⟨"Note".toList, fNote, false⟩ "Not".toList 2,
             .undoOp] (uniqueState, noteEditor)).1.undoStack.length ≤ 10 ∧
    boundPush (wRecs.take 10) recNote =
      (wRecs.take 10).drop 1 ++ [recNote] ∧
    wRecs.foldl boundPush [] = wRecs.drop 5 :=
  ⟨undoStack_bound_fifo.1 _ uniqueState noteEditor (by decide),
   undoStack_bound_fifo.2.1 _ recNote (by decide),
   undoStack_bound_fifo.2.2 wRecs (by decide)⟩

/-- C6: on a nonempty ledger, explicit undo pops the most recent record
and restores the recorded line byte-for-byte and the recorded cursor,
regardless of the record age; on an empty ledger it is a no-op. -/
theorem undoLastAutolink_spec (st : PluginState) (ed : EditorState) :
    (st.undoStack = [] → undoLastAutolink st ed = (st, ed)) ∧
    (∀ (s : List UndoRecord) (r : UndoRecord),
      st.undoStack = s ++ [r] → r.line < ed.lines.length →
      (undoLastAutolink st ed).1.undoStack = s ∧
      getLine (undoLastAutolink st ed).2 r.line = r.original ∧
      (undoLastAutolink st ed).2.cursor = r.cursor) := by
  constructor
  · intro h
    unfold undoLastAutolink
    rw [h]
    rfl
  · intro s r hs hlt
    unfold undoLastAutolink
    rw [hs, List.getLast?_concat]
    refine ⟨?_, ?_, rfl⟩
    · simp [List.dropLast_concat]
    · show (ed.lines.set r.line r.original).getD r.line [] = r.original
      exact getD_set_self ed.lines r.line r.original [] hlt

/-- C6 witness: concrete no-op on the empty ledger, and concrete
pop-and-restore of the latest record. -/
theorem undoLastAutolink_spec_witness :
    undoLastAutolink ⟨baseSettings, [], [], [], [], false⟩ noteEditor =
      (⟨baseSettings, [], [], [], [], false⟩, noteEditor) ∧
    ((undoLastAutolink ⟨baseSettings, [], [], [], [recNote], false⟩
        ⟨["[[Note]] ".toList], (0, 9)⟩).1.undoStack = [] ∧
      getLine (undoLastAutolink ⟨baseSettings, [], [], [], [recNote], false⟩
        ⟨["[[Note]] ".toList], (0, 9)⟩).2 recNote.line = recNote.original ∧
      (undoLastAutolink ⟨baseSettings, [], [], [], [recNote], false⟩
        ⟨["[[Note]] ".toList], (0, 9)⟩).2.cursor = recNote.cursor) :=
  ⟨(undoLastAutolink_spec ⟨baseSettings, [], [], [], [], false⟩
      noteEditor).1 rfl,
   (undoLastAutolink_spec ⟨baseSettings, [], [], [], [recNote], false⟩
      ⟨["[[Note]] ".toList], (0, 9)⟩).2 [] recNote rfl (by decide)⟩

/-- C8: every link-inserting operation pushes a record holding the full
pre-mutation line and cursor before overwriting the line, so chaining
`undoLastAutolink` right after any of them restores the editor
exactly. -/
theorem record_before_mutation (st : PluginState) (ed : EditorState)
    (w typed : Str) (m : Candidate) (d now : Nat) :
    ((insertLinkForCompletedWord st ed w m d now).1.undoStack.getLast? =
        some (mkRecord ed now m.file.basename) ∧
      (undoLastAutolink (insertLinkForCompletedWord st ed w m d now).1
        (insertLinkForCompletedWord st ed w m d now).2).2.lines =
        ed.lines ∧
      (undoLastAutolink (insertLinkForCompletedWord st ed w m d now).1
        (insertLinkForCompletedWord st ed w m d now).2).2.cursor =
        ed.cursor) ∧
    ((handleAutonomousMode st ed typed [m] now).1.undoStack.getLast? =
        some (mkRecord ed now m.file.basename) ∧
      (undoLastAutolink (handleAutonomousMode st ed typed [m] now).1
        (handleAutonomousMode st ed typed [m] now).2.1).2.lines =
        ed.lines ∧
      (undoLastAutolink (handleAutonomousMode st ed typed [m] now).1
        (handleAutonomousMode st ed typed [m] now).2.1).2.cursor =
        ed.cursor) ∧
    ((acceptSuggestion st ed m typed now).1.undoStack.getLast? =
        some (mkRecord ed now m.file.basename) ∧
      (undoLastAutolink (acceptSuggestion st ed m typed now).1
        (acceptSuggestion st ed m typed now).2).2.lines = ed.lines ∧
      (undoLastAutolink (acceptSuggestion st ed m typed now).1
        (acceptSuggestion st ed m typed now).2).2.cursor = ed.cursor) := by
  refine ⟨⟨?_, ?_, ?_⟩, ⟨?_, ?_, ?_⟩, ⟨?_, ?_, ?_⟩⟩
  · exact boundPush_getLast _ _
  · exact (undo_of_setline st ed _ _ now m.file.basename).1
  · exact (undo_of_setline st ed _ _ now m.file.basename).2
  · exact boundPush_getLast _ _
  · exact (undo_of_setline st ed _ _ now m.file.basename).1
  · exact (undo_of_setline st ed _ _ now m.file.basename).2
  · exact boundPush_getLast _ _
  · rcases hidx : lastIndexOfSub ((getLine ed ed.cursor.1).take ed.cursor.2)
        typed with _ | idx <;>
      simp only [acceptSuggestion, hidx] <;>
      exact (undo_of_setline st ed _ _ now m.file.basename).1
  · rcases hidx : lastIndexOfSub ((getLine ed ed.cursor.1).take ed.cursor.2)
        typed with _ | idx <;>
      simp only [acceptSuggestion, hidx] <;>
      exact (undo_of_setline st ed _ _ now m.file.basename).2


/-- C3 (amended): applying a link over a completed word produces
`[[Basename]]` or `[[Basename|Alias]]`, replaces exactly the fragment
span while keeping the trailing delimiter and surrounding text, and
puts the cursor at the offset one past the inserted link (after the
kept delimiter), clamped to the new line length. -/
theorem insertLink_replaces_span (st : PluginState) (ed : EditorState)
    (a w : Str) (dChar : Char) (b : Str) (m : Candidate) (now : Nat)
    (hline : getLine ed ed.cursor.1 = (a ++ w) ++ dChar :: b)
    (hidx : ed.cursor.1 < ed.lines.length) :
    getLine (insertLinkForCompletedWord st ed w m
        ((a ++ w).length) now).2 ed.cursor.1 =
      a ++ linkFor m ++ dChar :: b ∧
    (insertLinkForCompletedWord st ed w m ((a ++ w).length) now).2.cursor =
      (ed.cursor.1,
        min (a ++ linkFor m ++ dChar :: b).length
          (a.length + (linkFor m).length + 1)) ∧
    (m.isAlias = false →
      linkFor m = '[' :: '[' :: (m.file.basename ++ [']', ']'])) ∧
    (m.isAlias = true →
      linkFor m =
        '[' :: '[' :: (m.file.basename ++ '|' :: m.title ++ [']', ']'])) := by
  have htake : ((a ++ w) ++ dChar :: b).take (a ++ w).length = a ++ w :=
    List.take_left _ _
  have hdrop : ((a ++ w) ++ dChar :: b).drop (a ++ w).length = dChar :: b :=
    List.drop_left _ _
  have hws : (a ++ w).length - w.length = a.length := by simp
  have htake2 : ((a ++ w) ++ dChar :: b).take a.length = a := by
    rw [List.append_assoc]
    have := List.take_left a (w ++ dChar :: b)
    exact this
  simp only [insertLinkForCompletedWord]
  rw [hline, htake, hdrop, hws, htake2]
  refine ⟨?_, ?_, ?_, ?_⟩
  · simp only [getLine, setLine, setCursor]
    exact getD_set_self _ _ _ _ hidx
  · rfl
  · intro h
    simp [linkFor, h]
  · intro h
    simp [linkFor, h]

/-- C3 counterexample: completing `Note` in `Note ` puts the cursor at
column 9, one past the inserted 8-character link `[[Note]]`, so the
cursor is not the offset immediately following the inserted link. -/
theorem insertLink_cursor_counterexample :
    (insertLinkForCompletedWord uniqueState noteEditor "Note".toList
        ⟨"Note".toList, fNote, false⟩ 4 100).2.cursor.2 = 9 ∧
    (linkFor ⟨"Note".toList, fNote, false⟩).length = 8 ∧
    (insertLinkForCompletedWord uniqueState noteEditor "Note".toList
        ⟨"Note".toList, fNote, false⟩ 4 100).2.lines =
      ["[[Note]] ".toList] ∧
    (insertLinkForCompletedWord uniqueState noteEditor "Note".toList
        ⟨"Note".toList, fNote, false⟩ 4 100).2.cursor.2 ≠
      min ("[[Note]] ".toList).length (0 + 8) := by
  refine ⟨by decide, by decide, by decide, by decide⟩

/-- C3 witness: the alias fixture `Focus` → `Deep Work` yields
`[[Deep Work|Focus]]` and the theorem's span/cursor conclusions hold at
a concrete input. -/
theorem insertLink_replaces_span_witness :
    (getLine (insertLinkForCompletedWord uniqueState
        ⟨["try Focus now".toList], (0, 10)⟩ "Focus".toList
        ⟨"Focus".toList, fDeep, true⟩ (("try ".toList ++
          "Focus".toList).length) 5).2 0 =
      "try ".toList ++ linkFor ⟨"Focus".toList, fDeep, true⟩ ++
        (' ' :: "now".toList)) ∧
    linkFor ⟨"Focus".toList, fDeep, true⟩ = "[[Deep Work|Focus]]".toList :=
  ⟨(insertLink_replaces_span uniqueState
      ⟨["try Focus now".toList], (0, 10)⟩ "try ".toList "Focus".toList
      ' ' "now".toList ⟨"Focus".toList, fDeep, true⟩ 5 (by decide)
      (by decide)).1,
    by decide⟩


/-- Prepending a non-`c` character does not change the digraph count. -/
theorem countPairs_cons_of_ne {c a : Char} (l : Str) (h : a ≠ c) :
    countPairs c (a :: l) = countPairs c l := by
  cases l with
  | nil => rfl
  | cons b rest =>
    show (if a = c ∧ b = c then countPairs c rest + 1
      else countPairs c (b :: rest)) = countPairs c (b :: rest)
    rw [if_neg (fun hc => h hc.1)]

/-- A prefix not containing `c` does not change the digraph count. -/
theorem countPairs_append_of_not_mem {c : Char} (l m : Str) (h : c ∉ l) :
    countPairs c (l ++ m) = countPairs c m := by
  induction l with
  | nil => rfl
  | cons a l ih =>
    have ha : a ≠ c := fun e => h (e ▸ List.mem_cons_self a l)
    rw [List.cons_append, countPairs_cons_of_ne _ ha,
      ih (fun hm => h (List.mem_cons_of_mem a hm))]

/-- A list without `c` has digraph count zero. -/
theorem countPairs_eq_zero_of_not_mem {c : Char} (l : Str) (h : c ∉ l) :
    countPairs c l = 0 := by
  have := countPairs_append_of_not_mem l [] h
  simpa using this

/-- A `cc` digraph at the head adds one to the count. -/
theorem countPairs_double (c : Char) (l : Str) :
    countPairs c (c :: c :: l) = countPairs c l + 1 := by
  show (if c = c ∧ c = c then countPairs c l + 1
    else countPairs c (c :: l)) = countPairs c l + 1
  rw [if_pos ⟨rfl, rfl⟩]

/-- Core of the round-trip property: right after an opening `[[` whose
prefix is bracket-free, as long as the text up to the cursor contains
no further `[` and no `]]` digraph, the detector reports inside. -/
theorem isInsideLink_open_general (pre rest : Str) (k : Nat)
    (hp1 : '[' ∉ pre) (hp2 : ']' ∉ pre)
    (hm1 : '[' ∉ rest.take k) (hm2 : countPairs ']' (rest.take k) = 0) :
    isInsideLink (pre ++ '[' :: '[' :: rest) (pre.length + 2 + k) = true := by
  have htake : (pre ++ '[' :: '[' :: rest).take (pre.length + 2 + k) =
      pre ++ '[' :: '[' :: rest.take k := by
    have h1 : pre.length + 2 + k = pre.length + (k + 1 + 1) := by omega
    rw [h1, List.take_append, List.take_succ_cons, List.take_succ_cons]
  have hopen : countPairs '[' (pre ++ '[' :: '[' :: rest.take k) = 1 := by
    rw [countPairs_append_of_not_mem _ _ hp1, countPairs_double,
      countPairs_eq_zero_of_not_mem _ hm1]
  have hclose : countPairs ']' (pre ++ '[' :: '[' :: rest.take k) = 0 := by
    rw [countPairs_append_of_not_mem _ _ hp2,
      countPairs_cons_of_ne _ (by decide),
      countPairs_cons_of_ne _ (by decide), hm2]
  simp only [isInsideLink, htake, hopen, hclose]
  rw [if_pos (by omega)]

/-- C4 (amended): a line built around a produced link `[[B]]` or
`[[B|A]]`, with bracket-free text before the link and bracket-free
target and alias text, registers as inside-link at every column
strictly interior to the link span except the column right after the
first `[` (where the detector sees neither an unbalanced `[[` nor the
`](` heuristic). -/
theorem producedLink_roundtrip (pre post : Str) (m : Candidate) (c : Nat)
    (hp1 : '[' ∉ pre) (hp2 : ']' ∉ pre)
    (hb1 : '[' ∉ m.file.basename) (hb2 : ']' ∉ m.file.basename)
    (ht1 : '[' ∉ m.title) (ht2 : ']' ∉ m.title)
    (hc1 : pre.length + 2 ≤ c)
    (hc2 : c + 1 ≤ pre.length + (linkFor m).length) :
    isInsideLink (pre ++ linkFor m ++ post) c = true := by
  set inner := m.file.basename ++
    (if m.isAlias then '|' :: m.title else []) with hinner
  have hinner1 : '[' ∉ inner := by
    intro hmem
    rcases List.mem_append.mp hmem with h | h
    · exact hb1 h
    · split at h
      · rcases List.mem_cons.mp h with h | h
        · exact absurd h (by decide)
        · exact ht1 h
      · simp at h
  have hinner2 : ']' ∉ inner := by
    intro hmem
    rcases List.mem_append.mp hmem with h | h
    · exact hb2 h
    · split at h
      · rcases List.mem_cons.mp h with h | h
        · exact absurd h (by decide)
        · exact ht2 h
      · simp at h
  have hlink : linkFor m ++ post =
      '[' :: '[' :: (inner ++ ']' :: ']' :: post) := by
    simp [linkFor, hinner, List.append_assoc]
  have hlen : (linkFor m).length = inner.length + 4 := by
    simp [linkFor, hinner]
    omega
  set k := c - pre.length - 2 with hk
  have hc : c = pre.length + 2 + k := by omega
  have hkle : k ≤ inner.length + 1 := by omega
  have hrest : (inner ++ ']' :: ']' :: post) = (inner ++ [']']) ++ (']' :: post) := by
    simp [List.append_assoc]
  have htk : (inner ++ ']' :: ']' :: post).take k = (inner ++ [']']).take k := by
    rw [hrest, List.take_append_of_le_length (by simp; omega)]
  have hm1 : '[' ∉ (inner ++ ']' :: ']' :: post).take k := by
    rw [htk]
    intro hmem
    rcases List.mem_append.mp (List.mem_of_mem_take hmem) with h | h
    · exact hinner1 h
    · simp at h
  have hm2 : countPairs ']' ((inner ++ ']' :: ']' :: post).take k) = 0 := by
    rw [htk]
    rcases Nat.lt_or_ge k (inner.length + 1) with hlt | hge
    · have : (inner ++ [']']).take k = inner.take k :=
        List.take_append_of_le_length (by omega)
      rw [this]
      exact countPairs_eq_zero_of_not_mem _
        (fun hmem => hinner2 (List.mem_of_mem_take hmem))
    · have hkeq : k = inner.length + 1 := by omega
      have : (inner ++ [']']).take k = inner ++ [']'] := by
        apply List.take_of_length_le
        simp [hkeq]
      rw [this, countPairs_append_of_not_mem _ _ hinner2]
      rfl
  rw [List.append_assoc, hlink, hc]
  exact isInsideLink_open_general pre _ k hp1 hp2 hm1 hm2

/-- C4 counterexample: with the produced link `[[Note]]` as the whole
line, the strictly interior column 1 is not reported inside; and with
a stray `]]` before the link, the interior column 4 is not reported
inside either. -/
theorem producedLink_roundtrip_counterexample :
    linkFor ⟨"Note".toList, fNote, false⟩ = "[[Note]]".toList ∧
    isInsideLink ("[[Note]]".toList) 1 = false ∧
    (0 < 1 ∧ 1 < ("[[Note]]".toList).length) ∧
    isInsideLink ("]]".toList ++ "[[Note]]".toList) 4 = false ∧
    (2 < 4 ∧ 4 < 2 + ("[[Note]]".toList).length) := by
  refine ⟨by decide, by decide, by decide, by decide, by decide⟩

/-- C4 witness: interior columns of a concrete alias link embedded in
a line register as inside-link. -/
theorem producedLink_roundtrip_witness :
    isInsideLink ("a ".toList ++ linkFor ⟨"Focus".toList, fDeep, true⟩ ++
      " tail".toList) 10 = true :=
  producedLink_roundtrip "a ".toList " tail".toList
    ⟨"Focus".toList, fDeep, true⟩ 10 (by decide) (by decide) (by decide)
    (by decide) (by decide) (by decide) (by decide) (by decide)


/-- C7: with a timestamped most-recent record, the Backspace/Delete
handler fires (consumes the event and undoes) exactly when the cursor
is on the record line, adjacent to or inside the span of a scanned link
whose base text equals the record target, and at most 30 seconds have
elapsed; otherwise the key proceeds natively with all state, ledger
included, unchanged. -/
theorem implicitUndo_iff (key : KeyType) (st : PluginState)
    (ed : EditorState) (now : Nat) (s : List UndoRecord) (r : UndoRecord)
    (hstack : st.undoStack = s ++ [r])
    (hkey : key = .backspace ∨ key = .delete)
    (hts : 0 < r.timestamp) :
    ((implicitUndoHandler key st ed now).1 = true ↔
      (ed.cursor.1 = r.line ∧ r.linkText ≠ [] ∧
        (∃ t ∈ findLinks (getLine ed ed.cursor.1),
          t.2.2 = r.linkText ∧
          nearLink key ed.cursor.2 t.1 (t.1 + t.2.1) = true) ∧
        now - r.timestamp ≤ 30000)) ∧
    ((implicitUndoHandler key st ed now).1 = false →
      implicitUndoHandler key st ed now = (false, st, ed)) ∧
    ((implicitUndoHandler key st ed now).1 = true →
      (implicitUndoHandler key st ed now).2.1.undoStack = s) := by
  have hlen : st.undoStack.length > 0 := by
    rw [hstack]
    simp
  have hget : st.undoStack.getLast? = some r := by
    rw [hstack]
    exact List.getLast?_concat _
  have hdrop : st.undoStack.dropLast = s := by
    rw [hstack]
    exact List.dropLast_concat
  unfold implicitUndoHandler
  rw [if_pos ⟨hkey, hlen⟩]
  split
  · rename_i hnone
    rw [hget] at hnone
    simp at hnone
  · rename_i lastUndo hsome
    rw [hget] at hsome
    injection hsome with hlu
    subst hlu
    by_cases hcur : ed.cursor.1 = r.line ∧ r.linkText ≠ []
    · rw [if_pos hcur]
      split
      · rename_i t hfind
        have hsomeEx : ∃ t ∈ findLinks (getLine ed ed.cursor.1),
            t.2.2 = r.linkText ∧
            nearLink key ed.cursor.2 t.1 (t.1 + t.2.1) = true := by
          refine ⟨t, List.mem_of_find?_eq_some hfind, ?_⟩
          have := List.find?_some hfind
          simp at this
          exact this
        by_cases htime : r.timestamp = 0 ∨ now - r.timestamp ≤ 30000
        · rw [if_pos htime]
          refine ⟨?_, ?_, ?_⟩
          · refine iff_of_true rfl ⟨hcur.1, hcur.2, hsomeEx, ?_⟩
            rcases htime with h0 | hle
            · omega
            · exact hle
          · intro h
            simp at h
          · intro _
            show (undoLastAutolink
              { st with isAutoLinkDisabled := true } ed).1.undoStack = s
            unfold undoLastAutolink
            rw [show ({ st with isAutoLinkDisabled := true } :
                PluginState).undoStack = st.undoStack from rfl, hget]
            exact hdrop
        · rw [if_neg htime]
          refine ⟨?_, fun _ => rfl, ?_⟩
          · refine iff_of_false (by simp) ?_
            rintro ⟨_, _, _, ht⟩
            exact htime (Or.inr ht)
          · intro h
            simp at h
      · rename_i hfind
        have hnoneEx : ¬ ∃ t ∈ findLinks (getLine ed ed.cursor.1),
            t.2.2 = r.linkText ∧
            nearLink key ed.cursor.2 t.1 (t.1 + t.2.1) = true := by
          rw [List.find?_eq_none] at hfind
          rintro ⟨t, htmem, ht1, ht2⟩
          exact hfind t htmem (by simp [ht1, ht2])
        refine ⟨?_, fun _ => rfl, ?_⟩
        · refine iff_of_false (by simp) ?_
          rintro ⟨_, _, hex, _⟩
          exact hnoneEx hex
        · intro h
          simp at h
    · rw [if_neg hcur]
      refine ⟨?_, fun _ => rfl, ?_⟩
      · refine iff_of_false (by simp) ?_
        rintro ⟨h1, h2, _, _⟩
        exact hcur ⟨h1, h2⟩
      · intro h
        simp at h

/-- C7 witness: a concrete fresh record fires the implicit undo at a
cursor inside the link span, popping the ledger. -/
theorem implicitUndo_iff_witness :
    (implicitUndoHandler .backspace
        ⟨baseSettings, [], [], [], [recNote], false⟩
        ⟨["[[Note]] ".toList], (0, 5)⟩ 200).1 = true ∧
    (implicitUndoHandler .backspace
        ⟨baseSettings, [], [], [], [recNote], false⟩
        ⟨["[[Note]] ".toList], (0, 5)⟩ 200).2.1.undoStack = [] := by
  have h := implicitUndo_iff .backspace
    ⟨baseSettings, [], [], [], [recNote], false⟩
    ⟨["[[Note]] ".toList], (0, 5)⟩ 200 [] recNote rfl (Or.inl rfl)
    (by decide)
  have hfire : (implicitUndoHandler .backspace
      ⟨baseSettings, [], [], [], [recNote], false⟩
      ⟨["[[Note]] ".toList], (0, 5)⟩ 200).1 = true :=
    h.1.mpr (by decide)
  exact ⟨hfire, h.2.2 hfire⟩


/-- The alias scan appends, in index order, a deduplicated selection of
alias candidates: each passes the prefix and current-document tests and
its file collides neither with the accumulator nor with an earlier
selected alias. -/
theorem aliasScan_acc (key cur : Str) :
    ∀ (rest : List (Str × TFile)) (acc : List Candidate),
      ∃ ex : List Candidate,
        aliasScan key cur rest acc = acc ++ ex ∧
        ex.Sublist (rest.map (fun p => ⟨p.1, p.2, true⟩)) ∧
        (∀ c ∈ ex, c.isAlias = true ∧ key.isPrefixOf c.title = true ∧
          c.file.basename ≠ cur) ∧
        (ex.map (fun c => c.file)).Nodup ∧
        (∀ c ∈ ex, ∀ m ∈ acc, m.file ≠ c.file) := by
  intro rest
  induction rest with
  | nil =>
    intro acc
    exact ⟨[], by simp [aliasScan], by simp, by simp, by simp, by simp⟩
  | cons p rest ih =>
    intro acc
    obtain ⟨a, f⟩ := p
    by_cases hcond : f.basename ≠ cur ∧ key.isPrefixOf a = true ∧
        (∀ m ∈ acc, m.file ≠ f)
    · obtain ⟨ex', h1, h2, h3, h4, h5⟩ := ih (acc ++ [⟨a, f, true⟩])
      refine ⟨⟨a, f, true⟩ :: ex', ?_, ?_, ?_, ?_, ?_⟩
      · simp only [aliasScan]
        rw [if_pos hcond, h1, List.append_assoc]
        rfl
      · simp only [List.map_cons]
        exact List.Sublist.cons₂ _ h2
      · intro c hc
        rcases List.mem_cons.mp hc with rfl | hc
        · exact ⟨rfl, hcond.2.1, hcond.1⟩
        · exact h3 c hc
      · simp only [List.map_cons]
        rw [List.nodup_cons]
        refine ⟨?_, h4⟩
        intro hmem
        obtain ⟨c, hc, hcf⟩ := List.mem_map.mp hmem
        exact (h5 c hc ⟨a, f, true⟩ (by simp)) hcf.symm
      · intro c hc m hm
        rcases List.mem_cons.mp hc with rfl | hc
        · exact hcond.2.2 m hm
        · exact h5 c hc m (List.mem_append_left _ hm)
    · obtain ⟨ex', h1, h2, h3, h4, h5⟩ := ih acc
      refine ⟨ex', ?_, ?_, h3, h4, h5⟩
      · simp only [aliasScan]
        rw [if_neg hcond, h1]
      · simp only [List.map_cons]
        exact List.Sublist.cons _ h2


/-- C2: assuming the documented index invariants (title keys are the
normalized basenames, alias keys are normalized, indexed files are
pairwise distinct), `findMatches` returns at most `maxSuggestions`
candidates, each matching the normalized search key by prefix, never
the current document (as title or alias), with no target twice, with
all title matches before all alias matches, each group in index
iteration order. -/
theorem findMatches_spec (st : PluginState) (typed currentBasename : Str)
    (hkeys : ∀ p ∈ st.noteTitles, p.1 = normKey st.settings p.2.basename)
    (hak : ∀ p ∈ st.aliases, normKey st.settings p.1 = p.1)
    (hnd : (st.noteTitles.map Prod.snd).Nodup) :
    (findMatches st typed currentBasename).length ≤
      st.settings.maxSuggestions ∧
    (∀ c ∈ findMatches st typed currentBasename,
      (normKey st.settings typed).isPrefixOf
        (normKey st.settings c.title) = true) ∧
    (∀ c ∈ findMatches st typed currentBasename, c.isAlias = false →
      c.title ≠ currentBasename) ∧
    (∀ c ∈ findMatches st typed currentBasename, c.isAlias = true →
      c.file.basename ≠ currentBasename) ∧
    ((findMatches st typed currentBasename).map
      (fun c => c.file)).Nodup ∧
    (findMatches st typed currentBasename).Pairwise
      (fun a b => a.isAlias = true → b.isAlias = true) ∧
    ((findMatches st typed currentBasename).filter
      (fun c => !c.isAlias)).Sublist
      (st.noteTitles.map (fun p => ⟨p.2.basename, p.2, false⟩)) ∧
    ((findMatches st typed currentBasename).filter
      (fun c => c.isAlias)).Sublist
      (st.aliases.map (fun p => ⟨p.1, p.2, true⟩)) := by
  obtain ⟨ex, hsc, hsub, hprops, hndex, hdisj⟩ :=
    aliasScan_acc (normKey st.settings typed) currentBasename st.aliases
      (titleScan st.noteTitles (normKey st.settings typed)
        (normKey st.settings currentBasename))
  have hfm : findMatches st typed currentBasename =
      (titleScan st.noteTitles (normKey st.settings typed)
          (normKey st.settings currentBasename) ++ ex).take
        st.settings.maxSuggestions := by
    simp only [findMatches]
    rw [hsc]
  have tm_mem : ∀ c ∈ titleScan st.noteTitles (normKey st.settings typed)
      (normKey st.settings currentBasename),
      ∃ p ∈ st.noteTitles,
        (p.1 ≠ normKey st.settings currentBasename ∧
          (normKey st.settings typed).isPrefixOf p.1 = true) ∧
        c = ⟨p.2.basename, p.2, false⟩ := by
    intro c hc
    simp only [titleScan, List.mem_map, List.mem_filter,
      Bool.and_eq_true, Bool.not_eq_true', beq_eq_false_iff_ne] at hc
    obtain ⟨p, ⟨hp, hne, hpre⟩, rfl⟩ := hc
    exact ⟨p, hp, ⟨hne, hpre⟩, rfl⟩
  have tm_false : ∀ c ∈ titleScan st.noteTitles (normKey st.settings typed)
      (normKey st.settings currentBasename), c.isAlias = false := by
    intro c hc
    obtain ⟨p, _, _, rfl⟩ := tm_mem c hc
    rfl
  have ex_true : ∀ c ∈ ex, c.isAlias = true := fun c hc => (hprops c hc).1
  have ex_mem : ∀ c ∈ ex, ∃ p ∈ st.aliases, c = ⟨p.1, p.2, true⟩ := by
    intro c hc
    have := hsub.subset hc
    simp only [List.mem_map] at this
    obtain ⟨p, hp, rfl⟩ := this
    exact ⟨p, hp, rfl⟩
  have tm_sub : (titleScan st.noteTitles (normKey st.settings typed)
      (normKey st.settings currentBasename)).Sublist
      (st.noteTitles.map (fun p => ⟨p.2.basename, p.2, false⟩)) := by
    simp only [titleScan]
    exact List.Sublist.map _ (List.filter_sublist _)
  have hsubfull : (findMatches st typed currentBasename).Sublist
      (titleScan st.noteTitles (normKey st.settings typed)
        (normKey st.settings currentBasename) ++ ex) := by
    rw [hfm]
    exact List.take_sublist _ _
  have hmem_full : ∀ c ∈ findMatches st typed currentBasename,
      c ∈ titleScan st.noteTitles (normKey st.settings typed)
        (normKey st.settings currentBasename) ++ ex :=
    fun c hc => hsubfull.subset hc
  refine ⟨?_, ?_, ?_, ?_, ?_, ?_, ?_, ?_⟩
  · rw [hfm, List.length_take]
    exact min_le_left _ _
  · intro c hc
    rcases List.mem_append.mp (hmem_full c hc) with h | h
    · obtain ⟨p, hp, ⟨hne, hpre⟩, rfl⟩ := tm_mem c h
      show (normKey st.settings typed).isPrefixOf
        (normKey st.settings p.2.basename) = true
      rw [← hkeys p hp]
      exact hpre
    · obtain ⟨p, hp, rfl⟩ := ex_mem c h
      have hpre := (hprops _ h).2.1
      show (normKey st.settings typed).isPrefixOf
        (normKey st.settings p.1) = true
      rw [hak p hp]
      exact hpre
  · intro c hc hfalse
    rcases List.mem_append.mp (hmem_full c hc) with h | h
    · obtain ⟨p, hp, ⟨hne, hpre⟩, rfl⟩ := tm_mem c h
      intro he
      replace he : p.2.basename = currentBasename := he
      apply hne
      rw [hkeys p hp, he]
    · rw [ex_true c h] at hfalse
      exact absurd hfalse (by simp)
  · intro c hc htrue
    rcases List.mem_append.mp (hmem_full c hc) with h | h
    · rw [tm_false c h] at htrue
      exact absurd htrue (by simp)
    · exact (hprops c h).2.2
  · refine List.Nodup.sublist (hsubfull.map (fun c => c.file)) ?_
    rw [List.map_append, List.nodup_append]
    refine ⟨?_, hndex, ?_⟩
    · have hsnd : ((titleScan st.noteTitles (normKey st.settings typed)
          (normKey st.settings currentBasename)).map
            (fun c => c.file)).Sublist (st.noteTitles.map Prod.snd) := by
        simp only [titleScan, List.map_map]
        have hfs := List.filter_sublist (l := st.noteTitles)
          (p := fun p => !(p.1 == normKey st.settings currentBasename) &&
            (normKey st.settings typed).isPrefixOf p.1)
        have := List.Sublist.map (fun p => Prod.snd p) hfs
        simpa using this
      exact List.Nodup.sublist hsnd hnd
    · intro x hx hx2
      obtain ⟨c, hc, rfl⟩ := List.mem_map.mp hx
      obtain ⟨c', hc', hcc⟩ := List.mem_map.mp hx2
      exact hdisj c' hc' c hc hcc.symm
  · refine List.Pairwise.sublist hsubfull ?_
    rw [List.pairwise_append]
    refine ⟨?_, ?_, ?_⟩
    · apply List.pairwise_of_forall_mem_list
      intro a ha b _ hta
      rw [tm_false a ha] at hta
      exact absurd hta (by simp)
    · apply List.pairwise_of_forall_mem_list
      intro a _ b hb _
      exact ex_true b hb
    · intro a _ b hb
      exact fun _ => ex_true b hb
  · have h1 := List.Sublist.filter (fun c : Candidate => !c.isAlias) hsubfull
    have h2 : (titleScan st.noteTitles (normKey st.settings typed)
        (normKey st.settings currentBasename) ++ ex).filter
        (fun c : Candidate => !c.isAlias) =
        titleScan st.noteTitles (normKey st.settings typed)
          (normKey st.settings currentBasename) := by
      rw [List.filter_append]
      rw [List.filter_eq_self.mpr
        (fun a ha => by rw [tm_false a ha]; rfl)]
      rw [List.filter_eq_nil_iff.mpr
        (fun a ha => by rw [ex_true a ha]; simp)]
      rw [List.append_nil]
    rw [h2] at h1
    exact h1.trans tm_sub
  · have h1 := List.Sublist.filter (fun c : Candidate => c.isAlias) hsubfull
    have h2 : (titleScan st.noteTitles (normKey st.settings typed)
        (normKey st.settings currentBasename) ++ ex).filter
        (fun c : Candidate => c.isAlias) = ex := by
      rw [List.filter_append]
      rw [List.filter_eq_nil_iff.mpr
        (fun a ha => by rw [tm_false a ha]; simp)]
      rw [List.filter_eq_self.mpr (fun a ha => ex_true a ha)]
      rw [List.nil_append]
    rw [h2] at h1
    refine h1.trans ?_
    exact hsub


/-- C2 witness: on a concrete case-insensitive index, typed `proj`
matches title `Project Plan`, the bound holds, and the result is the
singleton title candidate. -/
theorem findMatches_spec_witness :
    (findMatches projState "proj".toList "Current".toList).length ≤
      projState.settings.maxSuggestions ∧
    findMatches projState "proj".toList "Current".toList =
      [⟨"Project Plan".toList, fProject, false⟩] :=
  ⟨(findMatches_spec projState "proj".toList "Current".toList
      (by decide) (by decide) (by decide)).1,
    by decide⟩


/-- C1: in autonomous or semi-autonomous mode, when a delimiter
completes a long-enough word (all the guards of the completion branch
hold), `handleEditorChange` inserts a link if and only if the resolver
returns exactly one candidate for the completed word at the instant of
completion. -/
theorem autonomous_completion_iff (st : PluginState) (ed : EditorState)
    (currentBasename : Str) (now : Nat)
    (hdis : st.isAutoLinkDisabled = false)
    (hmode : st.settings.mode = .autonomous ∨
      st.settings.mode = .semiAutonomous)
    (hlink : isInsideLink (getLine ed ed.cursor.1) ed.cursor.2 = false)
    (hfrag : suffixWhile isWordChar
      ((getLine ed ed.cursor.1).take ed.cursor.2) ≠ [])
    (hlen : st.settings.minWordLength ≤ (trimStr (suffixWhile isWordChar
      ((getLine ed ed.cursor.1).take ed.cursor.2))).length)
    (hdelim : justTypedDelim (getLine ed ed.cursor.1) ed.cursor.2 = true)
    (hwfrag : suffixWhile isWordChar
      ((getLine ed ed.cursor.1).take (ed.cursor.2 - 1)) ≠ []) :
    (handleEditorChange st ed currentBasename now).2.2 = true ↔
      (findMatches st (trimStr (suffixWhile isWordChar
        ((getLine ed ed.cursor.1).take (ed.cursor.2 - 1))))
        currentBasename).length = 1 := by
  simp only [handleEditorChange]
  rw [if_neg (by simp [hdis]), if_neg (by simp [hlink]), if_neg hfrag,
    if_neg (by omega), if_pos ⟨hmode, hdelim⟩, if_neg hwfrag]
  split
  · rename_i h
    rw [if_pos (Or.inr h)]
    exact iff_of_true rfl h
  · rename_i h
    rcases hmode with h1 | h1 <;> simp only [modeSwitch, h1] <;>
      exact iff_of_false (by simp) h

/-- C1 witness: with `Note` and `Note with Space` indexed, the event
for typed `Note ` inserts nothing; with only `Note` indexed, the same
event rewrites the line to `[[Note]] `. -/
theorem autonomous_completion_iff_witness :
    (handleEditorChange ambiguousState noteEditor "Current".toList 0).2.2 =
      false ∧
    (handleEditorChange uniqueState noteEditor "Current".toList 0).2.2 =
      true ∧
    (handleEditorChange uniqueState noteEditor
      "Current".toList 0).2.1.lines = ["[[Note]] ".toList] ∧
    (handleEditorChange ambiguousState noteEditor
      "Current".toList 0).2.1.lines = ["Note ".toList] :=
  ⟨by decide,
   (autonomous_completion_iff uniqueState noteEditor "Current".toList 0
      (by decide) (by decide) (by decide) (by decide) (by decide)
      (by decide) (by decide)).mpr (by decide),
   by decide, by decide⟩

end AutoLink

